import Mathlib

/-!
Shallow embedding of the document core of the `sors` task tracker
(src/tasks.rs, src/clock.rs, src/doc.rs, src/clockedit.rs).

Modelling conventions:
* `Uuid` is modelled as `Nat`; the effectful generators `Uuid::new_v4()` and
  `Local::now()` are passed in as explicit arguments.
* `HashMap<Uuid, Rc<T>>` is modelled as an association list `List (Uuid × T)`
  with `HashMap::insert` semantics (`alInsert`): replace the entries of an
  existing key in place, otherwise append.  Iteration order of `values()` is
  the list order (a `HashMap` iterates in an unspecified order; theorems whose
  truth depends on iteration order take hypotheses that make the result
  order-independent).
* `DateTime<Local>` is modelled as `Nat` minutes; `date()` is minutes / 1440.
* `Rc` copy-on-write is the identity on immutable values.
* Methods taking `&mut self` and returning `Result<A>` become functions
  `Doc → ... → Doc × Except Error A`, so that the state left behind by a
  failing call is explicit.
* A Rust panic (e.g. `Vec::insert` with an out-of-bounds index) is modelled as
  `Option.none`; it is not an `Error` value, the process aborts.
-/

namespace Sors

abbrev Uuid := Nat

/-- Progress enum from `tasks.rs`. -/
inductive Progress where
  | Todo
  | Work
  | Done
  deriving DecidableEq, Repr

/-- Rust `Progress::done` from `tasks.rs`. -/
def Progress.done : Progress → Bool
  | .Todo => false
  | .Work => false
  | .Done => true

/-- Task record from `tasks.rs`. -/
structure Task where
  id : Uuid
  title : String
  body : String
  children : List Uuid
  progress : Option Progress
  deriving DecidableEq, Repr

/-- Rust `TaskMod::set_children` (`tasks.rs`). -/
def Task.set_children (t : Task) (children : List Uuid) : Task :=
  { t with children := children }

/-- Rust `TaskMod::add_child` (`tasks.rs`): push the child id at the end. -/
def Task.add_child (t : Task) (child : Uuid) : Task :=
  t.set_children (t.children ++ [child])

/-- Rust `TaskMod::insert_child` (`tasks.rs`): `Vec::insert` at `index`.
`Vec::insert` panics when `index > len`; the panic is modelled as `none`. -/
def Task.insert_child (t : Task) (child : Uuid) (index : Nat) : Option Task :=
  if index ≤ t.children.length then
    some (t.set_children (t.children.take index ++ child :: t.children.drop index))
  else
    none

/-- Rust `TaskMod::remove_child` (`tasks.rs`): filter the id out of `children`. -/
def Task.remove_child (t : Task) (child_id : Uuid) : Task :=
  t.set_children (t.children.filter (fun child => child ≠ child_id))

/-- Rust `TaskMod::set_progress` (`tasks.rs`). -/
def Task.set_progress (t : Task) (progress : Progress) : Task :=
  { t with progress := some progress }

/-- Clock record from `clock.rs`.  `end` is a Lean keyword, hence `end_`. -/
structure Clock where
  id : Uuid
  start : Nat
  end_ : Option Nat
  comment : Option String
  task_id : Option Uuid
  deriving DecidableEq, Repr

/-- Rust `ClockMod::set_start` (`clock.rs`). -/
def Clock.set_start (c : Clock) (start : Nat) : Clock :=
  { c with start := start }

/-- Rust `ClockMod::set_end` (`clock.rs`). -/
def Clock.set_end (c : Clock) (e : Nat) : Clock :=
  { c with end_ := some e }

/-- Rust `ClockMod::set_comment` (`clock.rs`). -/
def Clock.set_comment (c : Clock) (comment : String) : Clock :=
  { c with comment := some comment }

/-- Rust `ClockMod::set_task_id` (`clock.rs`). -/
def Clock.set_task_id (c : Clock) (task_id : Uuid) : Clock :=
  { c with task_id := some task_id }

/-- Calendar day of a timestamp (`DateTime::date()` on the minute model). -/
def dateOf (t : Nat) : Nat := t / 1440

/-- Error enum from `error.rs` (variants the embedded core can produce;
`CustomError` carries the boxed source error, modelled as a `String`). -/
inductive Error where
  | ioError
  | SerdeSerializationError
  | TaskUuidNotFound
  | ChildOutOfIndex
  | CustomError (source : String)
  | UnsufficientInput
  | ClockNotFound
  | ClockOutOfIndex
  deriving DecidableEq, Repr

/-- Lookup in the association-list model of `HashMap`: value of the first
entry with the given key (`HashMap::get`). -/
def alGet (m : List (Uuid × α)) (k : Uuid) : Option α :=
  (m.find? (fun p => p.1 = k)).map (fun p => p.2)

/-- Insert in the association-list model of `HashMap`: `HashMap::insert`
replaces the value of an existing key in place, otherwise adds the entry. -/
def alInsert (m : List (Uuid × α)) (k : Uuid) (v : α) : List (Uuid × α) :=
  if m.any (fun p => p.1 = k) then
    m.map (fun p => if p.1 = k then (k, v) else p)
  else
    m ++ [(k, v)]

/-- Doc record from `doc.rs`. -/
structure Doc where
  map : List (Uuid × Task)
  clocks : List (Uuid × Clock)
  current_clock : Option Uuid
  root : Uuid
  deriving DecidableEq, Repr

/-- Rust `Doc::get` (`doc.rs`). -/
def Doc.get (d : Doc) (id : Uuid) : Except Error Task :=
  match alGet d.map id with
  | some task => .ok task
  | none => .error .TaskUuidNotFound

/-- Rust `Doc::upsert` (`doc.rs`): keyed by `task.id`. -/
def Doc.upsert (d : Doc) (task : Task) : Doc :=
  { d with map := alInsert d.map task.id task }

/-- Rust `Doc::modify_task` (`doc.rs`).  The closure both rewrites the task
and may fail; failure is wrapped in `CustomError` and nothing is stored. -/
def Doc.modify_task (d : Doc) (id : Uuid) (func : Task → Except String Task) :
    Doc × Except Error Unit :=
  match d.get id with
  | .error e => (d, .error e)
  | .ok task =>
    match func task with
    | .error e => (d, .error (.CustomError e))
    | .ok task' => (d.upsert task', .ok ())

/-- Rust `Doc::add_subtask` (`doc.rs`): append `task.id` to the parent's
children, then upsert `task` itself. -/
def Doc.add_subtask (d : Doc) (task : Task) (parent_ref : Uuid) :
    Doc × Except Error Unit :=
  match d.modify_task parent_ref (fun parent => .ok (parent.add_child task.id)) with
  | (d', .error e) => (d', .error e)
  | (d', .ok _) => (d'.upsert task, .ok ())

/-- Rust `Doc::find_parent` (`doc.rs`): first task (in iteration order) whose
children list contains the id; the result is that task's `id` field. -/
def Doc.find_parent (d : Doc) (task_ref : Uuid) : Option Uuid :=
  (d.map.find? (fun p => p.2.children.any (fun child_id => child_id = task_ref))).map
    (fun p => p.2.id)

/-- Loop body of `Doc::is_in_hierarchy_of` (`doc.rs`): the Rust `loop` runs its
body at most 200 times (counter 0..199), modelled as structural fuel. -/
def Doc.hierarchyLoop (d : Doc) (parent_task : Uuid) : Uuid → Nat → Bool
  | _, 0 => false
  | tmp_task, fuel + 1 =>
    if tmp_task = parent_task then true
    else
      match d.find_parent tmp_task with
      | some new_parent => d.hierarchyLoop parent_task new_parent fuel
      | none => false

/-- Rust `Doc::is_in_hierarchy_of` (`doc.rs`). -/
def Doc.is_in_hierarchy_of (d : Doc) (child_task parent_task : Uuid) : Bool :=
  d.hierarchyLoop parent_task child_task 200

/-- Iterated `find_parent`: the parent chain of the code, `k` hops up. -/
def Doc.iterParent (d : Doc) : Uuid → Nat → Option Uuid
  | u, 0 => some u
  | u, k + 1 =>
    match d.find_parent u with
    | some p => d.iterParent p k
    | none => none

/-- Rust `Doc::path` (`doc.rs`): the Rust loop is unbounded, so it is modelled
with fuel; `none` means the fuel ran out before `find_parent` returned `None`
(in particular, divergence of the Rust loop is `none` for every fuel). -/
def Doc.pathAux (d : Doc) : Option Uuid → Nat → Option (List Uuid)
  | none, _ => some []
  | some _, 0 => none
  | some task_ref, fuel + 1 =>
    (d.pathAux (d.find_parent task_ref) fuel).map (fun res => task_ref :: res)

/-- Rust `Doc::path` terminates on `id` and returns `l`. -/
def Doc.pathTerminatesWith (d : Doc) (id : Uuid) (l : List Uuid) : Prop :=
  ∃ fuel, d.pathAux (some id) fuel = some l

/-- Rust `Doc::path` diverges on `id` (no fuel is ever enough). -/
def Doc.pathDiverges (d : Doc) (id : Uuid) : Prop :=
  ∀ fuel, d.pathAux (some id) fuel = none

/-- Fold body of `Doc::progress_summary` (`doc.rs`). -/
def progressFold (ps : List Progress) : Int × Int :=
  ps.foldl
    (fun acc progress =>
      (acc.1 + if progress.done then 1 else 0, acc.2 + 1))
    (0, 0)

/-- Rust `Doc::progress_summary` (`doc.rs`): over the direct children,
children whose id does not resolve are skipped (`filter_map(.. .ok())`),
then children without progress are skipped, then done/total are counted. -/
def Doc.progress_summary (d : Doc) (task_ref : Uuid) : Except Error (Int × Int) :=
  match d.get task_ref with
  | .error e => .error e
  | .ok task =>
    .ok (progressFold
      ((task.children.filterMap (fun child_ref => (d.get child_ref).toOption)).filterMap
        (fun child => child.progress)))

/-- Rust `Doc::clock` (`doc.rs`). -/
def Doc.clock (d : Doc) (clock_ref : Uuid) : Except Error Clock :=
  match alGet d.clocks clock_ref with
  | some c => .ok c
  | none => .error .ClockNotFound

/-- Rust `Doc::upsert_clock` (`doc.rs`). -/
def Doc.upsert_clock (d : Doc) (c : Clock) : Doc :=
  { d with clocks := alInsert d.clocks c.id c }

/-- Rust `Doc::clock_out` (`doc.rs`); `now` stands for `Local::now()`. -/
def Doc.clock_out (d : Doc) (now : Nat) : Doc × Except Error Bool :=
  match d.current_clock with
  | some clock_ref =>
    match d.clock clock_ref with
    | .error e => (d, .error e)
    | .ok c =>
      let c := c.set_end now
      let d := d.upsert_clock c
      ({ d with current_clock := none }, .ok true)
  | none => (d, .ok false)

/-- Rust `Doc::clock_new` (`doc.rs`); `newId` stands for `Uuid::new_v4()` and
`now` for `Local::now()`. -/
def Doc.clock_new (d : Doc) (newId : Uuid) (now : Nat) : Doc × Except Error Clock :=
  match d.clock_out now with
  | (d', .error e) => (d', .error e)
  | (d', .ok _) =>
    let c : Clock := { id := newId, start := now, end_ := none,
                       comment := none, task_id := none }
    let d'' := d'.upsert_clock c
    ({ d'' with current_clock := some newId }, .ok c)

/-- ClockEdit record from `clockedit.rs`: the working copy of a session. -/
structure ClockEdit where
  clocks : List Clock
  deriving DecidableEq, Repr

/-- Rust `ClockEdit::get_clock` (`clockedit.rs`). -/
def ClockEdit.get_clock (ce : ClockEdit) (i : Nat) : Except Error Clock :=
  match ce.clocks[i]? with
  | some c => .ok c
  | none => .error .ClockOutOfIndex

/-- Rust `ClockEdit::update_clock` (`clockedit.rs`). -/
def ClockEdit.update_clock (ce : ClockEdit) (i : Nat) (c : Clock) :
    ClockEdit × Except Error Unit :=
  if i < ce.clocks.length then
    ({ clocks := ce.clocks.set i c }, .ok ())
  else
    (ce, .error .ClockOutOfIndex)

/-- Rust `ClockEdit::modify_clock` (`clockedit.rs`). -/
def ClockEdit.modify_clock (ce : ClockEdit) (i : Nat) (func : Clock → Clock) :
    ClockEdit × Except Error Unit :=
  match ce.get_clock i with
  | .error e => (ce, .error e)
  | .ok c => ce.update_clock i (func c)

/-- Comparison used by `clocks.sort()` in `Doc::create_clock_edit`: the `Ord`
instance of `Clock` (`clock.rs`) compares by `start` only. -/
def clockLe (a b : Clock) : Bool := a.start ≤ b.start

/-- Rust `Doc::create_clock_edit` (`clockedit.rs`): collect the clocks whose
`start` falls on `date`, sort them by `start` (stable sort, `Ord` on `Clock`
is by `start`). -/
def Doc.create_clock_edit (d : Doc) (date : Nat) : ClockEdit :=
  { clocks := ((d.clocks.map Prod.snd).filter
      (fun c => dateOf c.start = date)).mergeSort clockLe }

/-- Rust `Doc::apply_clock_edit` (`clockedit.rs`): upsert every working-copy
clock back into the doc's clock store, in order. -/
def Doc.apply_clock_edit (d : Doc) (clock_edit : ClockEdit) : Doc :=
  clock_edit.clocks.foldl (fun acc c => acc.upsert_clock c) d

/-- Clock edit session flow as driven by `ClockEditCli` (`clockeditcli.rs`):
the session is opened with `create_clock_edit`, the commands mutate only the
working copy through `modify_clock` (index and field-rewrite pairs), and at
the end the outcome is either `Apply` (write the working copy back with
`apply_clock_edit`) or `Cancel` (the doc is left as it was). -/
def runClockEditSession (d : Doc) (date : Nat)
    (edits : List (Nat × (Clock → Clock))) (applied : Bool) : Doc :=
  let ce := d.create_clock_edit date
  let ce := edits.foldl (fun acc e => (acc.modify_clock e.1 e.2).1) ce
  if applied then d.apply_clock_edit ce else d

/-! Concrete fixtures used by counterexamples and witnesses. -/

/-- A task with the given id and children and empty text fields. -/
def mkTask (id : Uuid) (children : List Uuid) : Task :=
  { id := id, title := "", body := "", children := children, progress := none }

/-- A doc holding exactly one (root) task with id `0` and no children. -/
def docOne : Doc :=
  { map := [(0, mkTask 0 [])], clocks := [], current_clock := none, root := 0 }

/-- A doc whose root task `0` lists children `1` and `2`, where child `1` is
dangling (absent from the store) and child `2` is `Done`. -/
def docDangling : Doc :=
  { map := [(0, mkTask 0 [1, 2]),
            (2, { mkTask 2 [] with progress := some .Done })],
    clocks := [], current_clock := none, root := 0 }

/-! Association-list facts about the `HashMap` model. -/

theorem alGet_nil (k : Uuid) : alGet ([] : List (Uuid × α)) k = none := rfl

theorem any_key_eq_true_iff (m : List (Uuid × α)) (k : Uuid) :
    m.any (fun p => p.1 = k) = true ↔ k ∈ m.map Prod.fst := by
  simp only [List.any_eq_true, decide_eq_true_eq, List.mem_map]

theorem alInsert_of_not_key (m : List (Uuid × α)) (k : Uuid) (v : α)
    (h : k ∉ m.map Prod.fst) : alInsert m k v = m ++ [(k, v)] := by
  unfold alInsert
  rw [if_neg]
  intro hc
  exact h ((any_key_eq_true_iff m k).1 hc)

theorem alInsert_of_key (m : List (Uuid × α)) (k : Uuid) (v : α)
    (h : k ∈ m.map Prod.fst) :
    alInsert m k v = m.map (fun q => if q.1 = k then (k, v) else q) := by
  unfold alInsert
  rw [if_pos ((any_key_eq_true_iff m k).2 h)]

theorem alGet_of_not_key (m : List (Uuid × α)) (k : Uuid)
    (h : k ∉ m.map Prod.fst) : alGet m k = none := by
  unfold alGet
  rw [List.find?_eq_none.2]
  · rfl
  · intro p hp
    simp only [decide_eq_true_eq]
    intro he
    exact h (List.mem_map.2 ⟨p, hp, he⟩)

theorem alGet_append_of_not_key (l₁ l₂ : List (Uuid × α)) (k : Uuid)
    (h : k ∉ l₁.map Prod.fst) : alGet (l₁ ++ l₂) k = alGet l₂ k := by
  unfold alGet
  rw [List.find?_append, List.find?_eq_none.2, Option.none_or]
  intro p hp
  simp only [decide_eq_true_eq]
  intro he
  exact h (List.mem_map.2 ⟨p, hp, he⟩)

theorem alGet_key_mem (m : List (Uuid × α)) (k : Uuid) (v : α)
    (h : alGet m k = some v) : k ∈ m.map Prod.fst := by
  unfold alGet at h
  rcases Option.map_eq_some'.1 h with ⟨p, hp, hv⟩
  have hmem := List.mem_of_find?_eq_some hp
  have hkey := List.find?_some hp
  simp only [decide_eq_true_eq] at hkey
  exact List.mem_map.2 ⟨p, hmem, hkey⟩

theorem keys_map_replace (m : List (Uuid × α)) (k : Uuid) (v : α) :
    (m.map (fun q => if q.1 = k then (k, v) else q)).map Prod.fst =
      m.map Prod.fst := by
  induction m with
  | nil => rfl
  | cons p m ih =>
    simp only [List.map_cons, ih, List.cons.injEq, and_true]
    by_cases hp : p.1 = k
    · rw [if_pos hp]
      exact hp.symm
    · rw [if_neg hp]

theorem get_toOption (d : Doc) (id : Uuid) :
    (d.get id).toOption = alGet d.map id := by
  unfold Doc.get
  cases alGet d.map id <;> rfl

/-- C3 — `TaskMod::insert_child` at an index equal to the children length
appends the child at the end; at an index strictly beyond the length the
underlying `Vec::insert` panics (modelled as `none`), it does not clamp and
does not produce an `IndexOutOfRange`/`ChildOutOfIndex` error value. -/
theorem insert_child_boundary (t : Task) (child : Uuid) :
    t.insert_child child t.children.length =
      some (t.set_children (t.children ++ [child])) ∧
    ∀ index, t.children.length < index → t.insert_child child index = none := by
  constructor
  · unfold Task.insert_child
    rw [if_pos (le_refl _), List.take_length, List.drop_length]
  · intro index h
    unfold Task.insert_child
    rw [if_neg (by omega)]

/-- C3 witness — on a task with a single child `7`: inserting `9` at index 1
appends, inserting `9` at index 2 (beyond the length) panics. -/
theorem insert_child_boundary_witness :
    (mkTask 0 [7]).insert_child 9 (mkTask 0 [7]).children.length =
      some ((mkTask 0 [7]).set_children ((mkTask 0 [7]).children ++ [9])) ∧
    (mkTask 0 [7]).children.length < 2 ∧
    (mkTask 0 [7]).insert_child 9 2 = none :=
  ⟨(insert_child_boundary (mkTask 0 [7]) 9).1, by decide,
   (insert_child_boundary (mkTask 0 [7]) 9).2 2 (by decide)⟩

/-- C6 — `Doc::modify_task` is all-or-nothing: on any failure the task store
is unchanged; a missing id fails with `TaskUuidNotFound`; a failure of the
mutation function is propagated (wrapped as `CustomError`); on success the
full post-`func` snapshot is upserted. -/
theorem modify_task_atomic (d : Doc) (id : Uuid) (f : Task → Except String Task) :
    (∀ e, (d.modify_task id f).2 = .error e → (d.modify_task id f).1 = d) ∧
    (alGet d.map id = none → (d.modify_task id f).2 = .error .TaskUuidNotFound) ∧
    (∀ t e, alGet d.map id = some t → f t = .error e →
      (d.modify_task id f).2 = .error (.CustomError e)) ∧
    (∀ t t', alGet d.map id = some t → f t = .ok t' →
      d.modify_task id f = (d.upsert t', .ok ())) := by
  refine ⟨?_, ?_, ?_, ?_⟩
  · intro e he
    cases hg : alGet d.map id with
    | none => simp [Doc.modify_task, Doc.get, hg]
    | some t0 =>
      cases hf : f t0 with
      | error e0 => simp [Doc.modify_task, Doc.get, hg, hf]
      | ok t1 =>
        simp [Doc.modify_task, Doc.get, hg, hf] at he
  · intro h
    simp [Doc.modify_task, Doc.get, h]
  · intro t e ht hf
    simp [Doc.modify_task, Doc.get, ht, hf]
  · intro t t' ht hf
    simp [Doc.modify_task, Doc.get, ht, hf]

/-- C6 witness — on the one-task doc, a failing mutation function propagates
its error and leaves the doc unchanged. -/
theorem modify_task_atomic_witness :
    alGet docOne.map 0 = some (mkTask 0 []) ∧
    (docOne.modify_task 0 (fun _ => .error "boom")).2 =
      .error (.CustomError "boom") ∧
    (docOne.modify_task 0 (fun _ => .error "boom")).1 = docOne :=
  ⟨rfl,
   (modify_task_atomic docOne 0 (fun _ => .error "boom")).2.2.1
     (mkTask 0 []) "boom" rfl rfl,
   (modify_task_atomic docOne 0 (fun _ => .error "boom")).1 _
     ((modify_task_atomic docOne 0 (fun _ => .error "boom")).2.2.1
       (mkTask 0 []) "boom" rfl rfl)⟩

/-- C9 — `Doc::add_subtask` with a parent id absent from the task store fails
with `TaskUuidNotFound` and returns the doc completely unchanged; in
particular the child task is not inserted. -/
theorem add_subtask_missing_parent (d : Doc) (task : Task) (parent : Uuid)
    (h : alGet d.map parent = none) :
    d.add_subtask task parent = (d, .error .TaskUuidNotFound) := by
  simp [Doc.add_subtask, Doc.modify_task, Doc.get, h]

/-- C9 witness — adding a subtask under the missing parent id `5`. -/
theorem add_subtask_missing_parent_witness :
    alGet docOne.map 5 = none ∧
    docOne.add_subtask (mkTask 1 []) 5 = (docOne, .error .TaskUuidNotFound) :=
  ⟨rfl, add_subtask_missing_parent docOne (mkTask 1 []) 5 rfl⟩

/-- C10 — `Doc::progress_summary` on a task that exists succeeds even when
some children ids are dangling: unresolvable children are silently skipped
and progress is counted only over the children present in the store. -/
theorem progress_summary_dangling (d : Doc) (id : Uuid) (t : Task)
    (h : alGet d.map id = some t) :
    d.progress_summary id =
      .ok (progressFold
        ((t.children.filterMap (fun c => alGet d.map c)).filterMap
          (fun c => c.progress))) := by
  have hget : d.get id = .ok t := by
    unfold Doc.get
    rw [h]
  simp only [Doc.progress_summary, hget, get_toOption]

/-- C10 witness — root task `0` of `docDangling` lists a dangling child `1`
and a `Done` child `2`; the summary succeeds and counts only child `2`. -/
theorem progress_summary_dangling_witness :
    alGet docDangling.map 0 = some (mkTask 0 [1, 2]) ∧
    docDangling.progress_summary 0 = .ok (1, 1) :=
  ⟨rfl, by
    rw [progress_summary_dangling docDangling 0 (mkTask 0 [1, 2]) rfl]
    rfl⟩

/-- A doc whose task `7` lists itself as a child, so `find_parent 7 = some 7`.
Such a store is reachable through the public API (`upsert`/`add_subtask` do
not prevent cycles, see spec section 9). -/
def docCycle : Doc :=
  { map := [(7, mkTask 7 [7])], clocks := [], current_clock := none, root := 7 }

/-- C7 counterexample — `Doc::path` does not terminate for every doc and id:
on a store with a parent cycle the Rust loop runs forever (the fuelled model
returns `none` for every fuel). -/
theorem path_cycle_divergence_cex : docCycle.pathDiverges 7 := by
  intro fuel
  induction fuel with
  | zero => rfl
  | succ n ih =>
    have hf : docCycle.find_parent 7 = some 7 := rfl
    simp [Doc.pathAux, hf, ih]

/-- C7 amended — whenever the iterated `find_parent` chain from `id` dies out
within `k` hops, `Doc::path` terminates with fuel `k` and returns the ordered
parent chain: `id` first, consecutive entries linked by `find_parent`, and
the last entry parentless (the root for a well-formed tree). -/
theorem path_terminates_chain (d : Doc) (id : Uuid) (k : Nat)
    (h : d.iterParent id k = none) :
    ∃ l, d.pathAux (some id) k = some l ∧ l.head? = some id ∧
      (∀ i a b, l[i]? = some a → l[i + 1]? = some b → d.find_parent a = some b) ∧
      (∀ z, l.getLast? = some z → d.find_parent z = none) := by
  induction k generalizing id with
  | zero => simp [Doc.iterParent] at h
  | succ k ih =>
    cases hf : d.find_parent id with
    | none =>
      refine ⟨[id], ?_, rfl, ?_, ?_⟩
      · simp [Doc.pathAux, hf]
      · intro i a b ha hb
        cases i with
        | zero => simp at hb
        | succ j => simp at ha
      · intro z hz
        simp only [List.getLast?_singleton, Option.some.injEq] at hz
        rw [← hz]
        exact hf
    | some p =>
      have h' : d.iterParent p k = none := by
        simpa [Doc.iterParent, hf] using h
      obtain ⟨l', hp, hhead, hchain, hlast⟩ := ih p h'
      refine ⟨id :: l', ?_, rfl, ?_, ?_⟩
      · simp [Doc.pathAux, hf, hp]
      · intro i a b ha hb
        cases i with
        | zero =>
          simp only [List.getElem?_cons_zero, Option.some.injEq] at ha
          have hb' : l'[0]? = some b := by simpa using hb
          have hbp : b = p := by
            have : l'.head? = some b := by
              rw [List.head?_eq_getElem?]
              exact hb'
            rw [hhead] at this
            exact (Option.some.injEq _ _ ▸ this).symm
          rw [← ha, hbp]
          exact hf
        | succ j =>
          have ha' : l'[j]? = some a := by simpa using ha
          have hb' : l'[j + 1]? = some b := by simpa using hb
          exact hchain j a b ha' hb'
      · intro z hz
        cases l' with
        | nil => simp at hhead
        | cons x xs =>
          rw [List.getLast?_cons_cons] at hz
          exact hlast z hz

/-- C7 witness — on the one-task doc the chain from the root is just `[0]`. -/
theorem path_terminates_chain_witness :
    docOne.iterParent 0 1 = none ∧
    ∃ l, docOne.pathAux (some 0) 1 = some l ∧ l.head? = some 0 ∧
      (∀ i a b, l[i]? = some a → l[i + 1]? = some b →
        docOne.find_parent a = some b) ∧
      (∀ z, l.getLast? = some z → docOne.find_parent z = none) :=
  ⟨rfl, path_terminates_chain docOne 0 1 rfl⟩

/-! The hierarchy test (C4). -/

theorem alGet_cons_self (m : List (Uuid × α)) (k : Uuid) (v : α) :
    alGet ((k, v) :: m) k = some v := by
  unfold alGet
  rw [List.find?_cons_of_pos _ (by simp)]
  rfl

theorem alGet_cons_of_ne (m : List (Uuid × α)) (k k' : Uuid) (v : α)
    (h : k ≠ k') : alGet ((k, v) :: m) k' = alGet m k' := by
  unfold alGet
  rw [List.find?_cons_of_neg _ (by simp [h])]

/-- The 200-iteration loop of `is_in_hierarchy_of` returns true exactly when
some strictly-below-fuel number of `find_parent` hops leads to the target. -/
theorem hierarchyLoop_eq_true_iff (d : Doc) (p u : Uuid) (fuel : Nat) :
    d.hierarchyLoop p u fuel = true ↔
      ∃ k, k < fuel ∧ d.iterParent u k = some p := by
  induction fuel generalizing u with
  | zero => simp [Doc.hierarchyLoop]
  | succ n ih =>
    by_cases h : u = p
    · subst h
      constructor
      · intro _
        exact ⟨0, Nat.succ_pos n, rfl⟩
      · intro _
        simp [Doc.hierarchyLoop]
    · have hstep : d.hierarchyLoop p u (n + 1) =
          (match d.find_parent u with
           | some q => d.hierarchyLoop p q n
           | none => false) := by
        simp [Doc.hierarchyLoop, h]
      rw [hstep]
      cases hf : d.find_parent u with
      | none =>
        simp only [Bool.false_eq_true, false_iff, not_exists, not_and]
        intro k hk
        cases k with
        | zero =>
          intro heq
          exact h (Option.some.inj heq)
        | succ j => simp [Doc.iterParent, hf]
      | some q =>
        rw [ih q]
        constructor
        · rintro ⟨k, hk, hit⟩
          refine ⟨k + 1, by omega, ?_⟩
          simpa [Doc.iterParent, hf] using hit
        · rintro ⟨k, hk, hit⟩
          cases k with
          | zero =>
            exfalso
            apply h
            simpa [Doc.iterParent] using hit
          | succ j =>
            exact ⟨j, by omega, by simpa [Doc.iterParent, hf] using hit⟩

/-- Task `k` of the 201-task parent chain: task `k` lists `k + 1` as its only
child (and task `200` is a leaf). -/
def chainTask (k : Nat) : Task :=
  mkTask k (if k < 200 then [k + 1] else [])

/-- The store entries `(start, chainTask start), …` for `n` tasks. -/
def chainMapFrom (start : Nat) : Nat → List (Uuid × Task)
  | 0 => []
  | n + 1 => (start, chainTask start) :: chainMapFrom (start + 1) n

/-- A doc holding the 201-task chain `0 → 1 → … → 200`. -/
def docChain : Doc :=
  { map := chainMapFrom 0 201, clocks := [], current_clock := none, root := 0 }

theorem mem_chainMapFrom {x : Uuid × Task} (start n : Nat)
    (hx : x ∈ chainMapFrom start n) :
    ∃ k, start ≤ k ∧ k < start + n ∧ x = (k, chainTask k) := by
  induction n generalizing start with
  | zero => simp [chainMapFrom] at hx
  | succ n ih =>
    simp only [chainMapFrom, List.mem_cons] at hx
    cases hx with
    | inl h => exact ⟨start, le_refl _, by omega, h⟩
    | inr h =>
      obtain ⟨k, h1, h2, h3⟩ := ih (start + 1) h
      exact ⟨k, by omega, by omega, h3⟩

theorem chain_find?_eq (n start u : Nat) (h1 : start < u) (h2 : u ≤ start + n)
    (h3 : u ≤ 200) :
    (chainMapFrom start n).find?
        (fun q => q.2.children.any (fun child_id => child_id = u)) =
      some (u - 1, chainTask (u - 1)) := by
  induction n generalizing start with
  | zero => omega
  | succ n ih =>
    rw [chainMapFrom]
    by_cases he : start + 1 = u
    · have hlt : start < 200 := by omega
      rw [List.find?_cons_of_pos _ (by simp [chainTask, mkTask, if_pos hlt, he])]
      have hu : u - 1 = start := by omega
      rw [hu]
    · have hpred :
          ((chainTask start).children.any (fun child_id => child_id = u)) = false := by
        by_cases hlt : start < 200
        · simp [chainTask, mkTask, if_pos hlt, he]
        · simp [chainTask, mkTask, if_neg hlt]
      rw [List.find?_cons_of_neg _ (by simp [hpred])]
      exact ih (start + 1) (by omega) (by omega)

theorem docChain_find_parent (u : Nat) (h1 : 1 ≤ u) (h2 : u ≤ 200) :
    docChain.find_parent u = some (u - 1) := by
  unfold Doc.find_parent docChain
  rw [chain_find?_eq 201 0 u h1 (by omega) h2]
  simp [chainTask, mkTask]

theorem docChain_iterParent (k u : Nat) (hk : k ≤ u) (hu : u ≤ 200) :
    docChain.iterParent u k = some (u - k) := by
  induction k generalizing u with
  | zero => simp [Doc.iterParent]
  | succ k ih =>
    have h1 : 1 ≤ u := by omega
    have hstep : docChain.iterParent u (k + 1) = docChain.iterParent (u - 1) k := by
      simp [Doc.iterParent, docChain_find_parent u h1 hu]
    rw [hstep, ih (u - 1) (by omega) (by omega)]
    congr 1
    omega

/-- Direct child relation recorded in the task store: the task stored under
`p` lists `c` among its children. -/
def Doc.DirectChild (d : Doc) (p c : Uuid) : Prop :=
  ∃ t, alGet d.map p = some t ∧ c ∈ t.children

/-- Transitive (one or more hops) child relation of the store. -/
def Doc.Descendant (d : Doc) (p c : Uuid) : Prop :=
  Relation.TransGen d.DirectChild p c

theorem chain_alGet (n start k : Nat) (h1 : start ≤ k) (h2 : k < start + n) :
    alGet (chainMapFrom start n) k = some (chainTask k) := by
  induction n generalizing start with
  | zero => omega
  | succ n ih =>
    rw [chainMapFrom]
    by_cases he : start = k
    · subst he
      exact alGet_cons_self _ _ _
    · rw [alGet_cons_of_ne _ _ _ _ he]
      exact ih (start + 1) (by omega) (by omega)

theorem docChain_descendant : ∀ m, 1 ≤ m → m ≤ 200 → docChain.Descendant 0 m := by
  intro m
  induction m with
  | zero =>
    intro h _
    exact absurd h (by decide)
  | succ m ih =>
    intro _ h2
    have hm200 : m < 200 := Nat.lt_of_succ_le h2
    have hm201 : m < 0 + 201 := Nat.lt_of_lt_of_le hm200 (by decide)
    have hdc : docChain.DirectChild m (m + 1) := by
      refine ⟨chainTask m, ?_, ?_⟩
      · exact chain_alGet 201 0 m (Nat.zero_le m) hm201
      · simp [chainTask, mkTask, hm200]
    by_cases hm : m = 0
    · subst hm
      exact Relation.TransGen.single hdc
    · have hm1 : 1 ≤ m := Nat.one_le_iff_ne_zero.2 hm
      exact Relation.TransGen.tail (ih hm1 (Nat.le_of_lt hm200)) hdc

/-- C4 counterexample — on the 201-task chain, task `200` is a transitive
child of the root `0`, yet `is_in_hierarchy_of(200, 0)` is false because it
needs 200 parent hops and the loop gives up at the 200-iteration bound. -/
theorem hierarchy_depth_bound_cex :
    docChain.Descendant 0 200 ∧ docChain.is_in_hierarchy_of 200 0 = false := by
  refine ⟨docChain_descendant 200 (by decide) (by decide), ?_⟩
  cases hb : docChain.is_in_hierarchy_of 200 0
  · rfl
  · exfalso
    obtain ⟨k, hk, hit⟩ := (hierarchyLoop_eq_true_iff docChain 0 200 200).1 hb
    rw [docChain_iterParent k 200 (by omega) (by omega)] at hit
    have h0 : 200 - k = 0 := Option.some.inj hit
    omega

/-- C4 amended — `is_in_hierarchy_of` is reflexive; it is true whenever the
target is reached along the `find_parent` chain within the 200-hop bound
(at most 199 hops, so in particular for any direct or transitive child whose
chain to the ancestor is that short); and it is false whenever no bounded
number of hops reaches the target — covering both unrelated tasks and chains
that exceed the bound. -/
theorem is_in_hierarchy_of_props (d : Doc) (c p x : Uuid) :
    d.is_in_hierarchy_of x x = true ∧
    (∀ k, k ≤ 199 → d.iterParent c k = some p →
      d.is_in_hierarchy_of c p = true) ∧
    ((∀ k, k ≤ 199 → d.iterParent c k ≠ some p) →
      d.is_in_hierarchy_of c p = false) := by
  refine ⟨?_, ?_, ?_⟩
  · exact (hierarchyLoop_eq_true_iff d x x 200).2 ⟨0, by omega, rfl⟩
  · intro k hk hit
    exact (hierarchyLoop_eq_true_iff d p c 200).2 ⟨k, by omega, hit⟩
  · intro hall
    cases hb : d.is_in_hierarchy_of c p
    · rfl
    · exfalso
      obtain ⟨k, hk, hit⟩ := (hierarchyLoop_eq_true_iff d p c 200).1 hb
      exact hall k (by omega) hit

/-- C4 witness — on the one-task doc: reflexivity at `5` and at `0` (reached
in zero hops), and falseness for the unrelated pair `(1, 0)`. -/
theorem is_in_hierarchy_of_props_witness :
    docOne.is_in_hierarchy_of 5 5 = true ∧
    docOne.is_in_hierarchy_of 0 0 = true ∧
    docOne.is_in_hierarchy_of 1 0 = false :=
  ⟨(is_in_hierarchy_of_props docOne 0 0 5).1,
   (is_in_hierarchy_of_props docOne 0 0 0).2.1 0 (by decide) rfl,
   (is_in_hierarchy_of_props docOne 1 0 0).2.2 (by
     intro k hk
     cases k with
     | zero => decide
     | succ j =>
       have hf : docOne.find_parent 1 = none := rfl
       simp [Doc.iterParent, hf])⟩

/-! Adding a subtask and looking its parent up again (C1). -/

theorem add_child_id (t : Task) (c : Uuid) : (t.add_child c).id = t.id := rfl

theorem any_eq_self_iff (l : List Uuid) (k : Uuid) :
    (l.any fun c => decide (c = k)) = true ↔ k ∈ l := by
  simp [List.any_eq_true]

theorem alGet_some_elim (m : List (Uuid × α)) (k : Uuid) (v : α)
    (h : alGet m k = some v) : ∃ pr ∈ m, pr = (k, v) := by
  unfold alGet at h
  obtain ⟨pr, hfind, hsnd⟩ := Option.map_eq_some'.1 h
  have hm := List.mem_of_find?_eq_some hfind
  have hk : pr.1 = k := by simpa using List.find?_some hfind
  refine ⟨pr, hm, ?_⟩
  cases pr
  simp only at hk hsnd
  rw [hk, hsnd]

/-- C1 counterexample — `add_subtask(task, parent)` with `task.id = parent`
succeeds (the parent id is present), but the final `upsert` of `task`
overwrites the freshly extended parent entry, so `find_parent(task.id)`
afterwards is `None`, not the parent. -/
theorem add_subtask_self_parent_cex :
    (docOne.add_subtask (mkTask 0 []) 0).2 = .ok () ∧
    (docOne.add_subtask (mkTask 0 []) 0).1.find_parent 0 = none := by
  constructor
  · rfl
  · rfl

/-- C1 amended — if the parent id resolves to a task `p` whose stored id
field equals the key, `task.id` differs from the parent id, `task` does not
list itself as a child, and no stored task lists `task.id` among its
children, then `add_subtask(task, parent)` succeeds and afterwards
`find_parent(task.id)` returns the parent id. -/
theorem find_parent_after_add_subtask (d : Doc) (task p : Task) (parent : Uuid)
    (hp : alGet d.map parent = some p)
    (hpid : p.id = parent)
    (hne : task.id ≠ parent)
    (hself : task.id ∉ task.children)
    (hfresh : ∀ q ∈ d.map, task.id ∉ q.2.children) :
    (d.add_subtask task parent).2 = .ok () ∧
    (d.add_subtask task parent).1.find_parent task.id = some parent := by
  have hmod : d.modify_task parent (fun par => .ok (par.add_child task.id)) =
      (d.upsert (p.add_child task.id), .ok ()) := by
    simp [Doc.modify_task, Doc.get, hp]
  have hres : d.add_subtask task parent =
      ((d.upsert (p.add_child task.id)).upsert task, .ok ()) := by
    simp [Doc.add_subtask, hmod]
  refine ⟨by rw [hres], ?_⟩
  rw [hres]
  have hid : (p.add_child task.id).id = parent := hpid
  have hkey : parent ∈ d.map.map Prod.fst := alGet_key_mem d.map parent p hp
  have hmap1 : (d.upsert (p.add_child task.id)).map =
      d.map.map (fun q => if q.1 = parent then (parent, p.add_child task.id) else q) := by
    show alInsert d.map (p.add_child task.id).id (p.add_child task.id) = _
    rw [hid, alInsert_of_key d.map parent _ hkey]
  have hmap2 : ((d.upsert (p.add_child task.id)).upsert task).map =
      alInsert (d.map.map
        (fun q => if q.1 = parent then (parent, p.add_child task.id) else q))
        task.id task := by
    show alInsert ((d.upsert (p.add_child task.id)).map) task.id task = _
    rw [hmap1]
  have hM1elem : ∀ x, x ∈ d.map.map
      (fun q => if q.1 = parent then (parent, p.add_child task.id) else q) →
      x = (parent, p.add_child task.id) ∨ x ∈ d.map := by
    intro x hx
    obtain ⟨z, hz, hfz⟩ := List.mem_map.1 hx
    by_cases hzp : z.1 = parent
    · left
      rw [← hfz]
      simp [hzp]
    · right
      rw [← hfz]
      simp only [if_neg hzp]
      exact hz
  have hmem1 : (parent, p.add_child task.id) ∈ d.map.map
      (fun q => if q.1 = parent then (parent, p.add_child task.id) else q) := by
    obtain ⟨pr, hprm, hpr⟩ := alGet_some_elim d.map parent p hp
    have hin := List.mem_map_of_mem
      (fun q => if q.1 = parent then (parent, p.add_child task.id) else q) hprm
    rw [hpr] at hin
    simpa using hin
  have hPfresh : ∀ x, x ∈ d.map →
      (x.2.children.any fun child_id => decide (child_id = task.id)) = false := by
    intro x hx
    cases hb : x.2.children.any fun child_id => decide (child_id = task.id)
    · rfl
    · exact absurd ((any_eq_self_iff _ _).1 hb) (hfresh x hx)
  have hPtask : ((task.children.any fun child_id => decide (child_id = task.id))) = false := by
    cases hb : task.children.any fun child_id => decide (child_id = task.id)
    · rfl
    · exact absurd ((any_eq_self_iff _ _).1 hb) hself
  have hPpc : ((p.add_child task.id).children.any
      fun child_id => decide (child_id = task.id)) = true := by
    rw [any_eq_self_iff]
    simp [Task.add_child, Task.set_children]
  have hmem2 : (parent, p.add_child task.id) ∈ alInsert (d.map.map
      (fun q => if q.1 = parent then (parent, p.add_child task.id) else q))
      task.id task := by
    unfold alInsert
    by_cases hc : (d.map.map
        (fun q => if q.1 = parent then (parent, p.add_child task.id) else q)).any
        (fun q => q.1 = task.id) = true
    · rw [if_pos hc]
      have hin := List.mem_map_of_mem
        (fun q => if q.1 = task.id then (task.id, task) else q) hmem1
      simpa [Ne.symm hne] using hin
    · rw [if_neg hc]
      exact List.mem_append_left _ hmem1
  have honly : ∀ x, x ∈ alInsert (d.map.map
      (fun q => if q.1 = parent then (parent, p.add_child task.id) else q))
      task.id task →
      (x.2.children.any fun child_id => decide (child_id = task.id)) = true →
      x = (parent, p.add_child task.id) := by
    intro x hx hPx
    have hcases : x = (task.id, task) ∨ x ∈ d.map.map
        (fun q => if q.1 = parent then (parent, p.add_child task.id) else q) := by
      unfold alInsert at hx
      by_cases hc : (d.map.map
          (fun q => if q.1 = parent then (parent, p.add_child task.id) else q)).any
          (fun q => q.1 = task.id) = true
      · rw [if_pos hc] at hx
        obtain ⟨y, hy, hgy⟩ := List.mem_map.1 hx
        by_cases hyk : y.1 = task.id
        · left
          rw [← hgy]
          simp [hyk]
        · right
          rw [← hgy]
          simp only [if_neg hyk]
          exact hy
      · rw [if_neg hc] at hx
        cases List.mem_append.1 hx with
        | inl h => exact Or.inr h
        | inr h => exact Or.inl (by simpa using h)
    cases hcases with
    | inl h =>
      rw [h] at hPx
      exact absurd hPx (by rw [hPtask]; decide)
    | inr h =>
      cases hM1elem x h with
      | inl h' => exact h'
      | inr h' =>
        rw [hPfresh x h'] at hPx
        exact absurd hPx (by decide)
  have hfind : (alInsert (d.map.map
      (fun q => if q.1 = parent then (parent, p.add_child task.id) else q))
      task.id task).find?
        (fun q => q.2.children.any fun child_id => decide (child_id = task.id)) =
      some (parent, p.add_child task.id) := by
    have hs : ((alInsert (d.map.map
        (fun q => if q.1 = parent then (parent, p.add_child task.id) else q))
        task.id task).find?
          (fun q => q.2.children.any fun child_id => decide (child_id = task.id))).isSome := by
      rw [List.find?_isSome]
      exact ⟨(parent, p.add_child task.id), hmem2, hPpc⟩
    obtain ⟨x, hx⟩ := Option.isSome_iff_exists.1 hs
    have hfs := List.find?_some hx
    have hxeq := honly x (List.mem_of_find?_eq_some hx) hfs
    rw [hx, hxeq]
  unfold Doc.find_parent
  rw [hmap2, hfind]
  simp only [Option.map_some']
  rw [hid]

/-- C1 witness — adding the fresh task `3` under the root `0` of the
one-task doc; `find_parent 3` afterwards returns `0`. -/
theorem find_parent_after_add_subtask_witness :
    (docOne.add_subtask (mkTask 3 []) 0).2 = .ok () ∧
    (docOne.add_subtask (mkTask 3 []) 0).1.find_parent 3 = some 0 :=
  find_parent_after_add_subtask docOne (mkTask 3 []) (mkTask 0 []) 0
    rfl rfl (by decide) (by decide) (by decide)

/-! The single-active-clock property of two `clock_new` calls (C2). -/

/-- The clock literal built inside `clock_new`. -/
def mkFreshClock (id t : Nat) : Clock :=
  { id := id, start := t, end_ := none, comment := none, task_id := none }

theorem map_replace_of_not_key (m : List (Uuid × α)) (k : Uuid) (x : Uuid × α)
    (h : k ∉ m.map Prod.fst) : m.map (fun q => if q.1 = k then x else q) = m := by
  induction m with
  | nil => rfl
  | cons p m ih =>
    simp only [List.map_cons, List.mem_cons] at h ⊢
    push_neg at h
    rw [if_neg (fun he => h.1 he.symm), ih h.2]

theorem filter_eq_nil_of_false (p : α → Bool) (l : List α)
    (h : ∀ a ∈ l, p a = false) : l.filter p = [] := by
  induction l with
  | nil => rfl
  | cons a l ih =>
    rw [List.filter_cons, h a (List.mem_cons_self a l)]
    exact ih (fun b hb => h b (List.mem_cons_of_mem a hb))

/-- Second `clock_new` call on a doc whose active clock is the freshly
created `id1` sitting at the end of the store. -/
theorem clock_new_on_fresh (base : List (Uuid × Clock)) (d1 : Doc)
    (id1 id2 t1 t2 : Nat)
    (hclocks : d1.clocks = base ++ [(id1, mkFreshClock id1 t1)])
    (hcur : d1.current_clock = some id1)
    (hb1 : id1 ∉ base.map Prod.fst)
    (hb2 : id2 ∉ base.map Prod.fst)
    (h12 : id1 ≠ id2) :
    (d1.clock_new id2 t2).2 = .ok (mkFreshClock id2 t2) ∧
    (d1.clock_new id2 t2).1.clocks =
      (base ++ [(id1, (mkFreshClock id1 t1).set_end t2)]) ++
        [(id2, mkFreshClock id2 t2)] ∧
    (d1.clock_new id2 t2).1.current_clock = some id2 := by
  have halg1 : alGet d1.clocks id1 = some (mkFreshClock id1 t1) := by
    rw [hclocks, alGet_append_of_not_key _ _ _ hb1]
    exact alGet_cons_self _ _ _
  have hkeys1 : id1 ∈ d1.clocks.map Prod.fst := by
    rw [hclocks]
    simp
  have hclock1 : d1.clock id1 = .ok (mkFreshClock id1 t1) := by
    unfold Doc.clock
    rw [halg1]
  have e_out : d1.clock_out t2 =
      ({ d1 with
          clocks := alInsert d1.clocks ((mkFreshClock id1 t1).set_end t2).id
            ((mkFreshClock id1 t1).set_end t2),
          current_clock := none }, .ok true) := by
    simp [Doc.clock_out, hcur, hclock1, Doc.upsert_clock]
  have hins1 : alInsert d1.clocks ((mkFreshClock id1 t1).set_end t2).id
      ((mkFreshClock id1 t1).set_end t2) =
      base ++ [(id1, (mkFreshClock id1 t1).set_end t2)] := by
    rw [show ((mkFreshClock id1 t1).set_end t2).id = id1 from rfl]
    rw [alInsert_of_key _ _ _ hkeys1, hclocks, List.map_append,
      map_replace_of_not_key _ _ _ hb1]
    simp
  have hkeys2 : id2 ∉ (base ++ [(id1, (mkFreshClock id1 t1).set_end t2)]).map
      Prod.fst := by
    rw [List.map_append]
    intro hmem
    cases List.mem_append.1 hmem with
    | inl h => exact hb2 h
    | inr h =>
      simp only [List.map_cons, List.map_nil, List.mem_singleton] at h
      exact h12 h.symm
  refine ⟨?_, ?_, ?_⟩
  · simp [Doc.clock_new, e_out, mkFreshClock]
  · simp only [Doc.clock_new, e_out]
    show alInsert (alInsert d1.clocks ((mkFreshClock id1 t1).set_end t2).id
      ((mkFreshClock id1 t1).set_end t2)) (mkFreshClock id2 t2).id
      (mkFreshClock id2 t2) = _
    rw [hins1, show (mkFreshClock id2 t2).id = id2 from rfl,
      alInsert_of_not_key _ _ _ hkeys2]
  · simp [Doc.clock_new, e_out]

/-- A doc with a stray open clock under key `5` that is not referenced by
`current_clock` (such a store is reachable through the public `upsert_clock`
API, see spec section 9). -/
def docStray : Doc :=
  { map := [(0, mkTask 0 [])],
    clocks := [(5, mkFreshClock 5 0)],
    current_clock := none, root := 0 }

/-- C2 counterexample — on a doc with a stray open clock, two successive
`clock_new` calls succeed but leave two clocks with `end == None` in the
store, not exactly one. -/
theorem clock_new_twice_stray_open_cex :
    ((docStray.clock_new 1 10).1.clock_new 2 20).2 = .ok (mkFreshClock 2 20) ∧
    (((docStray.clock_new 1 10).1.clock_new 2 20).1.clocks.filter
      (fun q => q.2.end_ = none)).length = 2 :=
  ⟨rfl, rfl⟩

/-- C2 amended — on a doc whose store is coherent (each entry's clock id
equals its key) and which satisfies the single-active-clock invariant (every
stored open clock is the one referenced by `current_clock`), two successive
`clock_new` calls with fresh distinct ids leave: the first created clock
stored with its `end` set, `current_clock` referencing the second created
clock, and exactly one clock in the store with `end == None`. -/
theorem clock_new_twice_single_active (d : Doc) (id1 id2 t1 t2 : Nat)
    (c1 c2 : Clock)
    (hcoh : ∀ q ∈ d.clocks, q.2.id = q.1)
    (hinv : ∀ q ∈ d.clocks, q.2.end_ = none → d.current_clock = some q.1)
    (h1 : id1 ∉ d.clocks.map Prod.fst)
    (h2 : id2 ∉ d.clocks.map Prod.fst)
    (h12 : id1 ≠ id2)
    (hok1 : (d.clock_new id1 t1).2 = .ok c1)
    (hok2 : ((d.clock_new id1 t1).1.clock_new id2 t2).2 = .ok c2) :
    alGet ((d.clock_new id1 t1).1.clock_new id2 t2).1.clocks c1.id =
      some (c1.set_end t2) ∧
    ((d.clock_new id1 t1).1.clock_new id2 t2).1.current_clock = some c2.id ∧
    (((d.clock_new id1 t1).1.clock_new id2 t2).1.clocks.filter
      (fun q => q.2.end_ = none)).length = 1 := by
  cases hcc : d.current_clock with
  | none =>
    have e_out0 : d.clock_out t1 = (d, .ok false) := by
      simp [Doc.clock_out, hcc]
    have eok : (d.clock_new id1 t1).2 = .ok (mkFreshClock id1 t1) := by
      simp [Doc.clock_new, e_out0, mkFreshClock]
    have ec : (d.clock_new id1 t1).1.clocks =
        d.clocks ++ [(id1, mkFreshClock id1 t1)] := by
      simp only [Doc.clock_new, e_out0]
      show alInsert d.clocks (mkFreshClock id1 t1).id (mkFreshClock id1 t1) = _
      rw [show (mkFreshClock id1 t1).id = id1 from rfl,
        alInsert_of_not_key _ _ _ h1]
    have ecur : (d.clock_new id1 t1).1.current_clock = some id1 := by
      simp [Doc.clock_new, e_out0]
    have hclosed : ∀ q ∈ d.clocks, (decide (q.2.end_ = none)) = false := by
      intro q hq
      rw [decide_eq_false_iff_not]
      intro hqe
      have hq' := hinv q hq hqe
      rw [hcc] at hq'
      exact Option.noConfusion hq'
    obtain ⟨sok, sclocks, scur⟩ := clock_new_on_fresh d.clocks
      (d.clock_new id1 t1).1 id1 id2 t1 t2 ec ecur h1 h2 h12
    have hc1 : c1 = mkFreshClock id1 t1 := by
      rw [eok] at hok1
      injection hok1 with h
      exact h.symm
    have hc2 : c2 = mkFreshClock id2 t2 := by
      rw [sok] at hok2
      injection hok2 with h
      exact h.symm
    subst hc1
    subst hc2
    refine ⟨?_, ?_, ?_⟩
    · rw [show (mkFreshClock id1 t1).id = id1 from rfl, sclocks,
        List.append_assoc, alGet_append_of_not_key _ _ _ h1]
      exact alGet_cons_self _ _ _
    · rw [scur]
      rfl
    · rw [sclocks, List.filter_append, List.filter_append,
        filter_eq_nil_of_false _ _ hclosed]
      simp [mkFreshClock, Clock.set_end]
  | some r =>
    cases halg : alGet d.clocks r with
    | none =>
      exfalso
      have e_out : d.clock_out t1 = (d, .error .ClockNotFound) := by
        simp [Doc.clock_out, hcc, Doc.clock, halg]
      have : (d.clock_new id1 t1).2 = .error .ClockNotFound := by
        simp [Doc.clock_new, e_out]
      rw [this] at hok1
      exact Except.noConfusion hok1
    | some cr =>
      have hidr : cr.id = r := by
        obtain ⟨pr, hprm, hpr⟩ := alGet_some_elim d.clocks r cr halg
        have hc := hcoh pr hprm
        rw [hpr] at hc
        exact hc
      have hkeyr : r ∈ d.clocks.map Prod.fst := alGet_key_mem d.clocks r cr halg
      have hclockr : d.clock r = .ok cr := by
        unfold Doc.clock
        rw [halg]
      have e_out : d.clock_out t1 =
          ({ d with
              clocks := alInsert d.clocks (cr.set_end t1).id (cr.set_end t1),
              current_clock := none }, .ok true) := by
        simp [Doc.clock_out, hcc, hclockr, Doc.upsert_clock]
      have hinsr : alInsert d.clocks (cr.set_end t1).id (cr.set_end t1) =
          d.clocks.map (fun q => if q.1 = r then (r, cr.set_end t1) else q) := by
        rw [show (cr.set_end t1).id = cr.id from rfl, hidr,
          alInsert_of_key _ _ _ hkeyr]
      have hkeysbase :
          (d.clocks.map (fun q => if q.1 = r then (r, cr.set_end t1) else q)).map
            Prod.fst = d.clocks.map Prod.fst :=
        keys_map_replace d.clocks r (cr.set_end t1)
      have hb1 : id1 ∉ (d.clocks.map
          (fun q => if q.1 = r then (r, cr.set_end t1) else q)).map Prod.fst := by
        rw [hkeysbase]
        exact h1
      have hb2 : id2 ∉ (d.clocks.map
          (fun q => if q.1 = r then (r, cr.set_end t1) else q)).map Prod.fst := by
        rw [hkeysbase]
        exact h2
      have ec : (d.clock_new id1 t1).1.clocks =
          d.clocks.map (fun q => if q.1 = r then (r, cr.set_end t1) else q) ++
            [(id1, mkFreshClock id1 t1)] := by
        simp only [Doc.clock_new, e_out]
        show alInsert (alInsert d.clocks (cr.set_end t1).id (cr.set_end t1))
          (mkFreshClock id1 t1).id (mkFreshClock id1 t1) = _
        rw [hinsr, show (mkFreshClock id1 t1).id = id1 from rfl,
          alInsert_of_not_key _ _ _ hb1]
      have ecur : (d.clock_new id1 t1).1.current_clock = some id1 := by
        simp [Doc.clock_new, e_out]
      have eok : (d.clock_new id1 t1).2 = .ok (mkFreshClock id1 t1) := by
        simp [Doc.clock_new, e_out, mkFreshClock]
      have hclosed : ∀ q ∈ d.clocks.map
          (fun z => if z.1 = r then (r, cr.set_end t1) else z),
          (decide (q.2.end_ = none)) = false := by
        intro q hq
        rw [decide_eq_false_iff_not]
        obtain ⟨z, hz, hfz⟩ := List.mem_map.1 hq
        by_cases hzr : z.1 = r
        · rw [← hfz, if_pos hzr]
          simp [Clock.set_end]
        · rw [← hfz, if_neg hzr]
          intro hqe
          have hq' := hinv z hz hqe
          rw [hcc] at hq'
          exact hzr (Option.some.inj hq').symm
      obtain ⟨sok, sclocks, scur⟩ := clock_new_on_fresh
        (d.clocks.map (fun q => if q.1 = r then (r, cr.set_end t1) else q))
        (d.clock_new id1 t1).1 id1 id2 t1 t2 ec ecur hb1 hb2 h12
      have hc1 : c1 = mkFreshClock id1 t1 := by
        rw [eok] at hok1
        injection hok1 with h
        exact h.symm
      have hc2 : c2 = mkFreshClock id2 t2 := by
        rw [sok] at hok2
        injection hok2 with h
        exact h.symm
      subst hc1
      subst hc2
      refine ⟨?_, ?_, ?_⟩
      · rw [show (mkFreshClock id1 t1).id = id1 from rfl, sclocks,
          List.append_assoc, alGet_append_of_not_key _ _ _ hb1]
        exact alGet_cons_self _ _ _
      · rw [scur]
        rfl
      · rw [sclocks, List.filter_append, List.filter_append,
          filter_eq_nil_of_false _ _ hclosed]
        simp [mkFreshClock, Clock.set_end]

/-- C2 witness — two `clock_new` calls on the clockless one-task doc. -/
theorem clock_new_twice_single_active_witness :
    alGet ((docOne.clock_new 1 10).1.clock_new 2 20).1.clocks
      (mkFreshClock 1 10).id = some ((mkFreshClock 1 10).set_end 20) ∧
    ((docOne.clock_new 1 10).1.clock_new 2 20).1.current_clock =
      some (mkFreshClock 2 20).id ∧
    (((docOne.clock_new 1 10).1.clock_new 2 20).1.clocks.filter
      (fun q => q.2.end_ = none)).length = 1 :=
  clock_new_twice_single_active docOne 1 2 10 20
    (mkFreshClock 1 10) (mkFreshClock 2 20)
    (by decide) (by decide) (by decide) (by decide) (by decide) rfl rfl

/-! The clock edit session (C8). -/

theorem alGet_map_replace_ne (m : List (Uuid × α)) (k : Uuid) (v : α) (j : Uuid)
    (h : j ≠ k) :
    alGet (m.map (fun q => if q.1 = k then (k, v) else q)) j = alGet m j := by
  induction m with
  | nil => rfl
  | cons p m ih =>
    obtain ⟨pk, pv⟩ := p
    by_cases hpk : pk = k
    · subst hpk
      have hrw : ((pk, pv) :: m).map (fun q => if q.1 = pk then (pk, v) else q) =
          (pk, v) :: m.map (fun q => if q.1 = pk then (pk, v) else q) := by
        simp
      rw [hrw, alGet_cons_of_ne _ _ _ _ (fun he => h he.symm),
        alGet_cons_of_ne _ _ _ _ (fun he => h he.symm)]
      exact ih
    · simp only [List.map_cons, if_neg hpk]
      by_cases hpj : pk = j
      · subst hpj
        rw [alGet_cons_self, alGet_cons_self]
      · rw [alGet_cons_of_ne _ _ _ _ hpj, alGet_cons_of_ne _ _ _ _ hpj]
        exact ih

theorem alGet_map_replace_self (m : List (Uuid × α)) (k : Uuid) (v : α)
    (hk : k ∈ m.map Prod.fst) :
    alGet (m.map (fun q => if q.1 = k then (k, v) else q)) k = some v := by
  induction m with
  | nil => simp at hk
  | cons p m ih =>
    obtain ⟨pk, pv⟩ := p
    by_cases hpk : pk = k
    · subst hpk
      simp only [List.map_cons, if_pos rfl]
      exact alGet_cons_self _ _ _
    · simp only [List.map_cons, if_neg hpk]
      rw [alGet_cons_of_ne _ _ _ _ hpk]
      apply ih
      simp only [List.map_cons, List.mem_cons] at hk
      cases hk with
      | inl h => exact absurd h.symm hpk
      | inr h => exact h

theorem alGet_alInsert_self (m : List (Uuid × α)) (k : Uuid) (v : α) :
    alGet (alInsert m k v) k = some v := by
  unfold alInsert
  by_cases hc : m.any (fun p => p.1 = k) = true
  · rw [if_pos hc]
    exact alGet_map_replace_self m k v ((any_key_eq_true_iff m k).1 hc)
  · rw [if_neg hc]
    have hnk : k ∉ m.map Prod.fst := fun hm => hc ((any_key_eq_true_iff m k).2 hm)
    rw [alGet_append_of_not_key _ _ _ hnk]
    exact alGet_cons_self _ _ _

theorem alGet_alInsert_ne (m : List (Uuid × α)) (k : Uuid) (v : α) (j : Uuid)
    (h : j ≠ k) : alGet (alInsert m k v) j = alGet m j := by
  unfold alInsert
  by_cases hc : m.any (fun p => p.1 = k) = true
  · rw [if_pos hc]
    exact alGet_map_replace_ne m k v j h
  · rw [if_neg hc]
    unfold alGet
    rw [List.find?_append]
    cases hf : List.find? (fun p => p.1 = j) m with
    | none =>
      simp only [hf, Option.none_or]
      have hsingle : List.find? (fun p : Uuid × α => decide (p.1 = j)) [(k, v)] =
          none := by
        rw [List.find?_eq_none]
        intro x hx
        simp only [List.mem_singleton] at hx
        subst hx
        simp only [decide_eq_true_eq]
        exact fun he => h he.symm
      rw [hsingle]
    | some x => simp [hf]

theorem foldl_upsert_clock_not_mem (cs : List Clock) (d : Doc) (j : Uuid)
    (h : j ∉ cs.map Clock.id) :
    alGet ((cs.foldl (fun acc c => acc.upsert_clock c) d).clocks) j =
      alGet d.clocks j := by
  induction cs generalizing d with
  | nil => rfl
  | cons c0 cs ih =>
    simp only [List.map_cons, List.mem_cons] at h
    push_neg at h
    rw [List.foldl_cons, ih (d.upsert_clock c0) h.2]
    exact alGet_alInsert_ne _ _ _ _ h.1

theorem foldl_upsert_clock_nodup_mem (cs : List Clock) (d : Doc)
    (hnd : (cs.map Clock.id).Nodup) :
    ∀ c ∈ cs,
      alGet ((cs.foldl (fun acc c => acc.upsert_clock c) d).clocks) c.id =
        some c := by
  induction cs generalizing d with
  | nil =>
    intro c hc
    exact absurd hc (List.not_mem_nil c)
  | cons c0 cs ih =>
    intro c hc
    simp only [List.map_cons, List.nodup_cons] at hnd
    rw [List.foldl_cons]
    cases List.mem_cons.1 hc with
    | inl h =>
      subst h
      rw [foldl_upsert_clock_not_mem cs (d.upsert_clock c) c.id hnd.1]
      exact alGet_alInsert_self _ _ _
    | inr h => exact ih (d.upsert_clock c0) hnd.2 c h

/-- C8 — the clock edit session: opening a session snapshots exactly the
clocks whose `start` falls on the given date (as a permutation of the
filtered store), sorted by `start`; a cancelled session (any sequence of
entry edits, never applied) leaves the doc untouched; and applying a session
upserts every working-copy clock by id into the store — a full per-id
overwrite for the session's ids, while every other id is unaffected. -/
theorem clock_edit_session_props (d : Doc) (date : Nat)
    (edits : List (Nat × (Clock → Clock))) (ce : ClockEdit) :
    ((d.create_clock_edit date).clocks.Perm
      ((d.clocks.map Prod.snd).filter (fun c => dateOf c.start = date))) ∧
    ((d.create_clock_edit date).clocks.Pairwise (fun a b => a.start ≤ b.start)) ∧
    (runClockEditSession d date edits false = d) ∧
    (∀ j, j ∉ ce.clocks.map Clock.id →
      alGet (d.apply_clock_edit ce).clocks j = alGet d.clocks j) ∧
    ((ce.clocks.map Clock.id).Nodup →
      ∀ c ∈ ce.clocks, alGet (d.apply_clock_edit ce).clocks c.id = some c) := by
  have htrans : ∀ a b c : Clock, clockLe a b = true → clockLe b c = true →
      clockLe a c = true := by
    intro a b c hab hbc
    simp only [clockLe, decide_eq_true_eq] at hab hbc ⊢
    exact le_trans hab hbc
  have htotal : ∀ a b : Clock, (clockLe a b || clockLe b a) = true := by
    intro a b
    rw [Bool.or_eq_true]
    simp only [clockLe, decide_eq_true_eq]
    exact Nat.le_total a.start b.start
  refine ⟨?_, ?_, rfl, ?_, ?_⟩
  · exact List.mergeSort_perm _ clockLe
  · have hp := List.sorted_mergeSort htrans htotal
      ((d.clocks.map Prod.snd).filter (fun c => dateOf c.start = date))
    exact hp.imp (fun h => by simpa [clockLe] using h)
  · intro j hj
    exact foldl_upsert_clock_not_mem ce.clocks d j hj
  · intro hnd c hc
    exact foldl_upsert_clock_nodup_mem ce.clocks d hnd c hc

/-- C8 witness — on the stray-clock doc: a cancelled session leaves the doc
unchanged, and applying a session holding the edited clock `5` overwrites
entry `5` and leaves the absent id `9` absent. -/
theorem clock_edit_session_props_witness :
    runClockEditSession docStray 0 [(0, fun c => c.set_end 30)] false =
      docStray ∧
    alGet (docStray.apply_clock_edit
      ⟨[(mkFreshClock 5 0).set_end 30]⟩).clocks 9 = alGet docStray.clocks 9 ∧
    alGet (docStray.apply_clock_edit
      ⟨[(mkFreshClock 5 0).set_end 30]⟩).clocks 5 =
      some ((mkFreshClock 5 0).set_end 30) :=
  ⟨(clock_edit_session_props docStray 0 [(0, fun c => c.set_end 30)]
      ⟨[(mkFreshClock 5 0).set_end 30]⟩).2.2.1,
   (clock_edit_session_props docStray 0 [(0, fun c => c.set_end 30)]
      ⟨[(mkFreshClock 5 0).set_end 30]⟩).2.2.2.1 9 (by decide),
   (clock_edit_session_props docStray 0 [(0, fun c => c.set_end 30)]
      ⟨[(mkFreshClock 5 0).set_end 30]⟩).2.2.2.2 (by decide)
     ((mkFreshClock 5 0).set_end 30) (by decide)⟩

/-! Persistence round trip (C5).

`Doc::save`/`Doc::load` serialize through serde-derived code that is not part
of src/; the persisted format is modelled from the spec (section 6).

Modelled from the spec: the JSON document format — an object
`{"map": {uuid-string: Task, ...}, "clocks": {uuid-string: Clock, ...},
"current_clock": uuid-string|null, "root": uuid-string}` with Task and Clock
objects as given in section 6, where `clocks`/`current_clock` default to
empty/null when absent.  The JSON text is modelled as an abstract JSON tree;
uuid and timestamp tokens are rendered as decimal strings of the underlying
`Nat` model (standing in for the uuid / ISO-8601 lexical forms, which the
model abstracts as an injective rendering with an exact parse). -/

inductive Json where
  | null
  | str (s : String)
  | arr (items : List Json)
  | obj (fields : List (String × Json))

/-- Little-endian decimal digits of `n` (with fuel for structural recursion;
`fuel ≥ n` is always enough). -/
def natDigitsCore : Nat → Nat → List Char
  | 0, _ => []
  | fuel + 1, n =>
    if n = 0 then []
    else Char.ofNat (48 + n % 10) :: natDigitsCore fuel (n / 10)

/-- Decimal rendering of a `Nat` (the model of a uuid/timestamp token). -/
def natToString (n : Nat) : String :=
  if n = 0 then "0" else String.mk (natDigitsCore n n).reverse

/-- Value of little-endian decimal digits. -/
def digitsToNat : List Char → Nat
  | [] => 0
  | c :: cs => (c.toNat - 48) + 10 * digitsToNat cs

/-- Parse of the decimal rendering. -/
def stringToNat (s : String) : Nat :=
  digitsToNat s.data.reverse

theorem char_digit_toNat (r : Nat) (h : r < 10) :
    (Char.ofNat (48 + r)).toNat = 48 + r := by
  interval_cases r <;> decide

theorem digitsToNat_natDigitsCore (fuel n : Nat) (h : n ≤ fuel) :
    digitsToNat (natDigitsCore fuel n) = n := by
  induction fuel generalizing n with
  | zero =>
    have hz : n = 0 := Nat.le_zero.1 h
    subst hz
    rfl
  | succ fuel ih =>
    rw [natDigitsCore]
    by_cases hn : n = 0
    · rw [if_pos hn, hn]
      rfl
    · rw [if_neg hn, digitsToNat]
      have hr : n % 10 < 10 := Nat.mod_lt n (by decide)
      rw [char_digit_toNat (n % 10) hr]
      have hdiv : n / 10 ≤ fuel := by
        have hlt : n / 10 < n := Nat.div_lt_self (Nat.pos_of_ne_zero hn) (by decide)
        omega
      rw [ih (n / 10) hdiv]
      omega

theorem stringToNat_natToString (n : Nat) : stringToNat (natToString n) = n := by
  unfold natToString
  by_cases hn : n = 0
  · rw [if_pos hn, hn]
    decide
  · rw [if_neg hn]
    unfold stringToNat
    rw [show (String.mk (natDigitsCore n n).reverse).data =
      (natDigitsCore n n).reverse from rfl]
    rw [List.reverse_reverse]
    exact digitsToNat_natDigitsCore n n (le_refl n)

/-- Modelled from the spec: a uuid/timestamp scalar serializes as a string
token. -/
def encNat (n : Nat) : Json := .str (natToString n)

def decNat : Json → Option Nat
  | .str s => some (stringToNat s)
  | _ => none

def encOptNat : Option Nat → Json
  | none => .null
  | some n => encNat n

def decOptNat : Json → Option (Option Nat)
  | .null => some none
  | .str s => some (some (stringToNat s))
  | _ => none

def encOptString : Option String → Json
  | none => .null
  | some s => .str s

def decOptString : Json → Option (Option String)
  | .null => some none
  | .str s => some (some s)
  | _ => none

/-- Modelled from the spec: `"progress": "Todo"|"Work"|"Done"|null`. -/
def encOptProgress : Option Progress → Json
  | none => .null
  | some .Todo => .str "Todo"
  | some .Work => .str "Work"
  | some .Done => .str "Done"

def decOptProgress : Json → Option (Option Progress)
  | .null => some none
  | .str "Todo" => some (some .Todo)
  | .str "Work" => some (some .Work)
  | .str "Done" => some (some .Done)
  | _ => none

/-- Modelled from the spec: the Task object of section 6. -/
def encTask (t : Task) : Json :=
  .obj [("id", encNat t.id), ("title", .str t.title), ("body", .str t.body),
        ("children", .arr (t.children.map encNat)),
        ("progress", encOptProgress t.progress)]

/-- Strict sequencing of an element decoder over a list (all-or-nothing, as
serde decodes sequences). -/
def seqOptList (f : α → Option β) : List α → Option (List β)
  | [] => some []
  | x :: xs =>
    match f x, seqOptList f xs with
    | some y, some ys => some (y :: ys)
    | _, _ => none

def decTask : Json → Option Task
  | .obj [("id", .str sid), ("title", .str title), ("body", .str sbody),
          ("children", .arr cs), ("progress", p)] =>
    (match seqOptList decNat cs, decOptProgress p with
     | some children, some progress =>
       some { id := stringToNat sid, title := title, body := sbody,
              children := children, progress := progress }
     | _, _ => none)
  | _ => none

/-- Modelled from the spec: the Clock object of section 6. -/
def encClock (c : Clock) : Json :=
  .obj [("id", encNat c.id), ("start", encNat c.start),
        ("end", encOptNat c.end_), ("comment", encOptString c.comment),
        ("task_id", encOptNat c.task_id)]

def decClock : Json → Option Clock
  | .obj [("id", .str sid), ("start", .str sstart), ("end", e),
          ("comment", cm), ("task_id", tid)] =>
    (match decOptNat e, decOptString cm, decOptNat tid with
     | some e', some cm', some tid' =>
       some { id := stringToNat sid, start := stringToNat sstart,
              end_ := e', comment := cm', task_id := tid' }
     | _, _, _ => none)
  | _ => none

/-- Modelled from the spec: the maps serialize as objects keyed by
uuid-strings. -/
def encTaskMap (m : List (Uuid × Task)) : Json :=
  .obj (m.map (fun p => (natToString p.1, encTask p.2)))

def decTaskMap : Json → Option (List (Uuid × Task))
  | .obj fields =>
    seqOptList (fun f => (decTask f.2).map (fun t => (stringToNat f.1, t))) fields
  | _ => none

def encClockMap (m : List (Uuid × Clock)) : Json :=
  .obj (m.map (fun p => (natToString p.1, encClock p.2)))

def decClockMap : Json → Option (List (Uuid × Clock))
  | .obj fields =>
    seqOptList (fun f => (decClock f.2).map (fun c => (stringToNat f.1, c))) fields
  | _ => none

/-- Modelled from the spec: the persisted document object, fields in the
declaration order `map`, `clocks`, `current_clock`, `root`. -/
def encDoc (d : Doc) : Json :=
  .obj [("map", encTaskMap d.map), ("clocks", encClockMap d.clocks),
        ("current_clock", encOptNat d.current_clock), ("root", encNat d.root)]

/-- Modelled from the spec: parse of the document object; `clocks` and
`current_clock` default to empty/`None` when the fields are absent (backward
compatibility with pre-time-tracking documents). -/
def decDoc : Json → Option Doc
  | .obj [("map", jm), ("clocks", jc), ("current_clock", jcc),
          ("root", .str sroot)] =>
    (match decTaskMap jm, decClockMap jc, decOptNat jcc with
     | some m, some cs, some cc =>
       some { map := m, clocks := cs, current_clock := cc,
              root := stringToNat sroot }
     | _, _, _ => none)
  | .obj [("map", jm), ("current_clock", jcc), ("root", .str sroot)] =>
    (match decTaskMap jm, decOptNat jcc with
     | some m, some cc =>
       some { map := m, clocks := [], current_clock := cc,
              root := stringToNat sroot }
     | _, _ => none)
  | .obj [("map", jm), ("root", .str sroot)] =>
    (match decTaskMap jm with
     | some m =>
       some { map := m, clocks := [], current_clock := none,
              root := stringToNat sroot }
     | _ => none)
  | _ => none

/-- Rust `Doc::save` (`doc.rs`): serialize the whole doc; the write of the
rendered text to the file is the out-of-scope IO layer, so the model returns
the serialized document. -/
def Doc.save (d : Doc) : Json := encDoc d

/-- Rust `Doc::load` (`doc.rs`): deserialize a persisted document, failing
with the serde deserialization error on malformed input. -/
def Doc.load (j : Json) : Except Error Doc :=
  match decDoc j with
  | some d => .ok d
  | none => .error .SerdeSerializationError

theorem decNat_encNat (n : Nat) : decNat (encNat n) = some n := by
  simp [decNat, encNat, stringToNat_natToString]

theorem decOptNat_encOptNat (o : Option Nat) :
    decOptNat (encOptNat o) = some o := by
  cases o with
  | none => rfl
  | some n => simp [decOptNat, encOptNat, encNat, stringToNat_natToString]

theorem decOptString_encOptString (o : Option String) :
    decOptString (encOptString o) = some o := by
  cases o <;> rfl

theorem decOptProgress_encOptProgress (o : Option Progress) :
    decOptProgress (encOptProgress o) = some o := by
  cases o with
  | none => rfl
  | some p => cases p <;> rfl

theorem seqOptList_decNat_encNat (l : List Nat) :
    seqOptList decNat (l.map encNat) = some l := by
  induction l with
  | nil => rfl
  | cons a l ih => simp [seqOptList, decNat_encNat, ih]

theorem decTask_encTask (t : Task) : decTask (encTask t) = some t := by
  simp [encTask, decTask, encNat, seqOptList_decNat_encNat,
    decOptProgress_encOptProgress, stringToNat_natToString]

theorem decClock_encClock (c : Clock) : decClock (encClock c) = some c := by
  simp [encClock, decClock, encNat, decOptNat_encOptNat,
    decOptString_encOptString, stringToNat_natToString]

theorem decTaskMap_encTaskMap (m : List (Uuid × Task)) :
    decTaskMap (encTaskMap m) = some m := by
  unfold encTaskMap decTaskMap
  induction m with
  | nil => rfl
  | cons p m ih =>
    simp only [List.map_cons, seqOptList, decTask_encTask,
      stringToNat_natToString, Option.map_some']
    simp only [List.map_cons] at ih
    simp [ih]

theorem decClockMap_encClockMap (m : List (Uuid × Clock)) :
    decClockMap (encClockMap m) = some m := by
  unfold encClockMap decClockMap
  induction m with
  | nil => rfl
  | cons p m ih =>
    simp only [List.map_cons, seqOptList, decClock_encClock,
      stringToNat_natToString, Option.map_some']
    simp only [List.map_cons] at ih
    simp [ih]

/-- C5 — saving a doc and loading the result yields a doc identical to the
original: same `root`, same task map, same clock map, same `current_clock`
(the loaded doc is equal to the saved one as a whole). -/
theorem save_load_roundtrip (d : Doc) : Doc.load (Doc.save d) = .ok d := by
  unfold Doc.save Doc.load
  rw [show decDoc (encDoc d) = some d from by
    simp [encDoc, decDoc, encNat, decTaskMap_encTaskMap,
      decClockMap_encClockMap, decOptNat_encOptNat, stringToNat_natToString]]

end Sors
